import Mathlib

/-!
Verification of the BIP-0039 mnemonic module of bitcoinlib
(`bitcoinlib/mnemonic.py`, class `Mnemonic`).

The module is embedded shallowly:

* character strings are lists of characters (`Str`), byte strings lists of
  naturals below 256 (`Bytes`), bit strings lists of naturals below 2;
* the external primitives the module imports from `bitcoinlib.encoding`
  (`change_base`, `normalize_string`, `to_bytes`) are not part of the
  sources under verification; they are modelled from the specification,
  see the doc comments on the corresponding definitions;
* the cryptographic primitives (SHA-256 from `hashlib`, the HMAC-SHA512
  pseudo random function underlying `pbkdf2.PBKDF2`, UTF-8 encoding of
  strings) are opaque to the module and are taken as parameters;
* the randomness source `os.urandom` is modelled by passing the random
  bytes as an explicit argument;
* Python exceptions are modelled by `Except MErr`; `MErr` distinguishes
  the `ValueError` raised for length violations (`invalidLength`), the
  `Warning` raised on a checksum mismatch (`invalidChecksum`), the
  `Warning` raised for a word that fails sanitization
  (`unrecognizedWord`), the `Warning` raised when no language matches
  (`unknownLanguage`), Python `IndexError` (`indexError`) and the
  `ValueError` raised by `list.index` (`valueError`).
-/

namespace BitcoinMnemonic

/-- Character strings, modelled as lists of characters. -/
abbrev Str := List Char

/-- Byte strings, modelled as lists of naturals (each below 256). -/
abbrev Bytes := List Nat

/-- Errors raised by the mnemonic module (see the module doc comment). -/
inductive MErr where
  | invalidLength
  | invalidChecksum
  | unrecognizedWord (w : Str)
  | unknownLanguage
  | indexError
  | valueError
deriving DecidableEq

/-- The numeric value of a big-endian digit sequence in base `b`. -/
def digitsVal (b : Nat) : List Nat → Nat
  | [] => 0
  | d :: ds => d * b ^ ds.length + digitsVal b ds

/-- The big-endian base-`b` digit sequence of `v`, of fixed length `len`
(leading zeros kept, high digits beyond `len` dropped). -/
def natToDigits (b : Nat) : Nat → Nat → List Nat
  | 0, _ => []
  | l + 1, v => natToDigits b l (v / b) ++ [v % b]

/-- The bit width of one digit, for the power-of-two bases the mnemonic
module converts between (2, 256 and 2048); used by the model of
`change_base` to compute exact output digit counts. -/
def bitsPerDigit : Nat → Nat
  | 2 => 1
  | 256 => 8
  | 2048 => 11
  | _ => 0

/-- Modelled from the spec: `bitcoinlib.encoding.change_base` (imported by
`mnemonic.py` but not among the sources under verification).  The spec
treats it as a given primitive performing "arbitrary-base big-number
re-basing between byte/bit/word-index representations" (§1), which
"re-expresses a sequence of digits in one numeric base as a sequence of
digits in another base" (§2).  It is modelled as: the value of the input
digit sequence, written in the target base, with as many digits as a
sequence of `ds.length` source-base digits re-expresses to (so leading
zeros of the input are preserved), but at least `minLen` digits (the
`min_length` argument of the source). -/
def change_base (bFrom bTo minLen : Nat) (ds : List Nat) : List Nat :=
  natToDigits bTo
    (max minLen
      ((ds.length * bitsPerDigit bFrom + (bitsPerDigit bTo - 1)) / bitsPerDigit bTo))
    (digitsVal bFrom ds)

/-- Modelled from the spec: `bitcoinlib.encoding.normalize_string` performs
Unicode NFKD normalization, a "given primitive" of the spec (§1).  BIP-39
wordlists are NFKD-normalized, and on NFKD-normalized text normalization
is the identity, so it is modelled as the identity map on sentences. -/
def normalize_string (s : Str) : Str := s

/-- Modelled from the spec: `bitcoinlib.encoding.to_bytes` converts its
argument ("bytes, hexstring") to a byte string; on arguments that already
are byte strings — the only form this embedding passes — it is the
identity. -/
def to_bytes (b : Bytes) : Bytes := b

/-- Python `' '.join(words)`. -/
def joinWords (ws : List Str) : Str := List.intercalate [' '] ws

/-- Python `sentence.split(' ')` (splits at every single space, keeping
empty pieces). -/
def splitWords (s : Str) : List Str := s.splitOn ' '

/-- `Mnemonic.checksum` (mnemonic.py lines 55–70).  `H` stands for the
SHA-256 digest `hashlib.sha256(data).digest()`, an external primitive
producing a 32-byte string; the `ValueError` raised for data whose bit
length is not divisible by 32 is `MErr.invalidLength`. -/
def checksum (H : Bytes → Bytes) (data : Bytes) : Except MErr Bytes :=
  let d := to_bytes data
  if d.length % 4 > 0 then .error .invalidLength
  else .ok ((change_base 256 2 256 (H d)).take (d.length * 8 / 32))

/-- Python list subscript `wl[i]` for a nonnegative index: the element, or
`IndexError` past the end. -/
def pyGetNat (wl : List Str) (i : Nat) : Except MErr Str :=
  if h : i < wl.length then .ok (wl.get ⟨i, h⟩) else .error .indexError

/-- Python `list.index(w)`: the position of the first occurrence of `w`,
`ValueError` when `w` is absent. -/
def pyIndex (wl : List Str) (w : Str) : Except MErr Nat :=
  match wl with
  | [] => .error .valueError
  | x :: xs => if x = w then .ok 0 else (pyIndex xs w).map (fun n => n + 1)

/-- Error-propagating map, modelling a Python loop or comprehension over a
fallible operation. -/
def exMapM {α β : Type} (f : α → Except MErr β) : List α → Except MErr (List β)
  | [] => .ok []
  | a :: as =>
    match f a with
    | .error e => .error e
    | .ok b =>
      match exMapM f as with
      | .error e => .error e
      | .ok bs => .ok (b :: bs)

/-- `Mnemonic.to_mnemonic` (lines 131–148), over the instance wordlist
`wl` (`self._wordlist`). -/
def to_mnemonic (H : Bytes → Bytes) (wl : List Str) (data : Bytes)
    (add_checksum : Bool) : Except MErr Str :=
  let d := to_bytes data
  if add_checksum then
    match checksum H d with
    | .error e => .error e
    | .ok cs =>
      let binresult := change_base 256 2 (d.length * 8) d ++ cs
      let wi := change_base 2 2048 0 binresult
      match exMapM (pyGetNat wl) wi with
      | .error e => .error e
      | .ok ws => .ok (normalize_string (joinWords ws))
  else
    let wi := change_base 256 2048 0 d
    match exMapM (pyGetNat wl) wi with
    | .error e => .error e
    | .ok ws => .ok (normalize_string (joinWords ws))

/-- The number of words of `ws` occurring in the wordlist `wl` (the
`wlcount` tally of `detect_language`). -/
def countIn (wl : List Str) (ws : List Str) : Nat :=
  ws.countP (fun w => wl.contains w)

/-- Python `max(wlcount.keys(), key=lambda key: wlcount[key])`: the first
maximum in registry order; a later entry replaces the current best only
when its count is strictly greater. -/
def bestOf (ws : List Str) (acc : Str × Nat) : List (Str × List Str) → Str × Nat
  | [] => acc
  | p :: ps =>
    bestOf ws (if countIn p.2 ws > acc.2 then (p.1, countIn p.2 ws) else acc) ps

/-- `Mnemonic.detect_language` (lines 179–208).  The registry `reg` models
the wordlist files of `WORDLIST_DIR` in directory-listing order, as pairs
of language identifier and word list.  The `Warning` raised when no
wordlist contains any input word is `MErr.unknownLanguage`; an empty
registry is also modelled by that failure (Python `max` raises on an
empty sequence). -/
def detect_language (reg : List (Str × List Str)) (sentence : Str) :
    Except MErr Str :=
  let ws := splitWords (normalize_string sentence)
  match reg with
  | [] => .error .unknownLanguage
  | r :: rs =>
    let best := bestOf ws (r.1, countIn r.2 ws) rs
    if best.2 = 0 then .error .unknownLanguage else .ok best.1

/-- The registry entry for a language (the source re-reads the wordlist
file `language + ".txt"`; a language detected by `detect_language` always
has an entry). -/
def lookupWl (reg : List (Str × List Str)) (lang : Str) : List Str :=
  match reg.find? (fun p => p.1 == lang) with
  | some p => p.2
  | none => []

/-- `Mnemonic.sanitize_mnemonic` (lines 210–232).  The `Warning` naming an
unrecognised word is `MErr.unrecognizedWord`; the source raises it for the
first word (in sentence order) missing from the detected language's
wordlist, and otherwise returns the words rejoined with single spaces. -/
def sanitize_mnemonic (reg : List (Str × List Str)) (sentence : Str) :
    Except MErr Str :=
  let s := normalize_string sentence
  match detect_language reg s with
  | .error e => .error e
  | .ok language =>
    let ws := splitWords s
    let wl := lookupWl reg language
    match ws.find? (fun w => !(wl.contains w)) with
    | some w => .error (.unrecognizedWord w)
    | none => .ok (joinWords ws)

/-- `Mnemonic.to_entropy` (lines 150–177).  `selfWl` is the instance
wordlist `self._wordlist` (note: the word-to-index mapping uses the
instance wordlist, while sanitization validates against the detected
language's wordlist from the registry).  In the checksum branch the source
computes `ent = change_base(wi, 2048, 256, output_even=0)` followed by
`binresult = change_base(ent, 256, 2, len(ent) * 4)`; both calls are to the
missing `bitcoinlib.encoding.change_base`, and per the spec (§4.2) this
composite re-bases "the index sequence from base-2048 to a bit string"
whose "total length is always divisible by 33 for valid BIP39 parameters",
i.e. the bit string carries 11 bits per word index; the composite is
therefore modelled as the single re-base `change_base 2048 2 0 wi`.  The
Python slices `binresult[:-len(binresult) // 33]` and
`binresult[-len(binresult) // 33:]` drop/keep the last
`⌈len(binresult)/33⌉` bits (unary minus binds tighter than `//`, so the
offset is `(-L) // 33 = -⌈L/33⌉`). -/
def to_entropy (H : Bytes → Bytes) (reg : List (Str × List Str))
    (selfWl : List Str) (sentence : Str) (includes_checksum : Bool) :
    Except MErr Bytes :=
  match sanitize_mnemonic reg sentence with
  | .error e => .error e
  | .ok s =>
    let ws := splitWords s
    match exMapM (pyIndex selfWl) ws with
    | .error e => .error e
    | .ok wi =>
      if includes_checksum then
        let binresult := change_base 2048 2 0 wi
        let k := (binresult.length + 32) / 33
        let entPart := binresult.take (binresult.length - k)
        let csPart := binresult.drop (binresult.length - k)
        let ent := change_base 2 256 0 entPart
        match checksum H ent with
        | .error e => .error e
        | .ok c => if csPart = c then .ok ent else .error .invalidChecksum
      else
        .ok (change_base 2048 256 0 wi)

/-- Modelled from the spec: one PBKDF2 block chain of the external `pbkdf2`
package with HMAC-SHA512 as pseudo-random function `prf` (spec §4.4:
"HMAC-SHA512-based PBKDF2").  `pbkdf2U prf pw salt i` is the pair
`(U_{i+1}, U_1 xor ... xor U_{i+1})` with
`U_1 = prf(pw, salt ++ INT_32BE(1))` and `U_{j+1} = prf(pw, U_j)`. -/
def pbkdf2U (prf : Bytes → Bytes → Bytes) (pw salt : Bytes) :
    Nat → Bytes × Bytes
  | 0 => let u := prf pw (salt ++ [0, 0, 0, 1]); (u, u)
  | i + 1 =>
    let p := pbkdf2U prf pw salt i
    let u := prf pw p.1
    (u, List.zipWith (fun a b => a ^^^ b) p.2 u)

/-- Modelled from the spec: `PBKDF2(password, salt, iterations=c, ...)
.read(64)` — the first 64 bytes of the first derived block
`T_1 = U_1 xor ... xor U_c` (64 bytes already, as HMAC-SHA512 yields
64-byte values). -/
def PBKDF2_read64 (prf : Bytes → Bytes → Bytes) (pw salt : Bytes)
    (iters : Nat) : Bytes :=
  (pbkdf2U prf pw salt (iters - 1)).2.take 64

/-- `PBKDF2_ROUNDS = 2048` (mnemonic.py line 29). -/
def PBKDF2_ROUNDS : Nat := 2048

/-- The salt constant `b'mnemonic'` of `to_seed`, as bytes. -/
def mnemonicSaltBytes : Bytes := "mnemonic".data.map (fun c => c.toNat)

/-- `Mnemonic.to_seed` (lines 72–91).  `prf` is the HMAC-SHA512 primitive
and `enc` the UTF-8 byte encoding of a string (Python `str.encode`); the
passphrase is passed already encoded to bytes. -/
def to_seed (prf : Bytes → Bytes → Bytes) (enc : Str → Bytes)
    (reg : List (Str × List Str)) (sentence : Str) (passphrase : Bytes) :
    Except MErr Bytes :=
  match sanitize_mnemonic reg sentence with
  | .error e => .error e
  | .ok ws =>
    .ok (PBKDF2_read64 prf (enc (normalize_string ws))
          (mnemonicSaltBytes ++ passphrase) PBKDF2_ROUNDS)

/-- `Mnemonic.generate` (lines 112–129); `randomBytes` models the
`strength // 8` bytes drawn from `os.urandom`, and the `ValueError` for a
strength not divisible by 32 is `MErr.invalidLength`. -/
def generate (H : Bytes → Bytes) (wl : List Str) (strength : Nat)
    (add_checksum : Bool) (randomBytes : Bytes) : Except MErr Str :=
  if strength % 32 > 0 then .error .invalidLength
  else to_mnemonic H wl randomBytes add_checksum

/-- Python list subscript `wl[i]` with a possibly negative index: a
negative index counts from the end of the list, an index out of range on
either side raises `IndexError`. -/
def pyGetInt (wl : List Str) (i : Int) : Except MErr Str :=
  let j : Int := if i < 0 then (wl.length : Int) + i else i
  if h : 0 ≤ j ∧ j.toNat < wl.length then .ok (wl.get ⟨j.toNat, h.2⟩)
  else .error .indexError

/-- `Mnemonic.word` (lines 93–102): `return self._wordlist[index]`. -/
def word (wl : List Str) (index : Int) : Except MErr Str := pyGetInt wl index

/-- Total variant of list indexing used to state results (`[]` default). -/
def getWord (wl : List Str) (i : Nat) : Str := wl.getD i []

/-- A concrete language identifier used in the closed instances below. -/
def langW : Str := ['e', 'n']

/-- A concrete duplicate-free 2048-entry wordlist (word `i` is the letter
a followed by `i` letters b) used in the closed instances below. -/
def wlW : List Str := (List.range 2048).map (fun i => 'a' :: List.replicate i 'b')

/-- The single-language registry over `wlW`. -/
def regW : List (Str × List Str) := [(langW, wlW)]

/-- A concrete stand-in for the abstract 32-byte digest primitive. -/
def H0 : Bytes → Bytes := fun _ => List.replicate 32 0

/-- A concrete stand-in for the abstract 64-byte HMAC-SHA512 primitive. -/
def prf0 : Bytes → Bytes → Bytes := fun _ _ => List.replicate 64 0

/-- A concrete stand-in for the abstract string-to-bytes encoding. -/
def enc0 : Str → Bytes := fun s => s.map Char.toNat

/-- One-word wordlist `{"a"}` of the two-language registry `regAB`. -/
def wlA : List Str := [['a']]

/-- One-word wordlist `{"b"}` of the two-language registry `regAB`. -/
def wlB : List Str := [['b']]

/-- A registry with two languages, `"e"` over `wlA` and `"s"` over `wlB`. -/
def regAB : List (Str × List Str) := [(['e'], wlA), (['s'], wlB)]

/-- The sentence "a a ab": the encoding of the four zero bytes over `wlW`
with its last word (index 0) replaced by the word of index 1, which
differs from it exactly in the single trailing checksum bit. -/
def sntC2 : Str := ['a', ' ', 'a', ' ', 'a', 'b']

theorem length_natToDigits (b l v : Nat) : (natToDigits b l v).length = l := by
  induction l generalizing v with
  | zero => rfl
  | succ l ih => simp [natToDigits, ih]

theorem natToDigits_lt (b l v : Nat) (hb : 0 < b) :
    ∀ d ∈ natToDigits b l v, d < b := by
  induction l generalizing v with
  | zero => simp [natToDigits]
  | succ l ih =>
    intro d hd
    simp only [natToDigits, List.mem_append, List.mem_singleton] at hd
    rcases hd with hd | hd
    · exact ih _ d hd
    · exact hd ▸ Nat.mod_lt _ hb

theorem digitsVal_cons (b y : Nat) (ys : List Nat) :
    digitsVal b (y :: ys) = y * b ^ ys.length + digitsVal b ys := rfl

theorem digitsVal_append (b : Nat) (xs ys : List Nat) :
    digitsVal b (xs ++ ys) = digitsVal b xs * b ^ ys.length + digitsVal b ys := by
  induction xs with
  | nil => simp [digitsVal]
  | cons x xs ih =>
    simp only [List.cons_append, digitsVal_cons, ih, List.length_append, pow_add]
    ring

theorem digitsVal_lt (b : Nat) (ds : List Nat) (_hb : 0 < b)
    (h : ∀ d ∈ ds, d < b) : digitsVal b ds < b ^ ds.length := by
  induction ds with
  | nil => simp [digitsVal]
  | cons d ds ih =>
    have hd : d < b := h d (List.mem_cons_self d ds)
    have hds : digitsVal b ds < b ^ ds.length :=
      ih fun x hx => h x (List.mem_cons_of_mem d hx)
    simp only [List.length_cons]
    calc digitsVal b (d :: ds) = d * b ^ ds.length + digitsVal b ds :=
          digitsVal_cons b d ds
      _ < d * b ^ ds.length + b ^ ds.length := by omega
      _ = (d + 1) * b ^ ds.length := by ring
      _ ≤ b * b ^ ds.length := Nat.mul_le_mul_right _ hd
      _ = b ^ (ds.length + 1) := by ring

theorem digitsVal_natToDigits (b l v : Nat) (h : v < b ^ l) :
    digitsVal b (natToDigits b l v) = v := by
  induction l generalizing v with
  | zero =>
    simp only [pow_zero, Nat.lt_one_iff] at h
    simp [natToDigits, digitsVal, h]
  | succ l ih =>
    have hb : 0 < b := by
      rcases Nat.eq_zero_or_pos b with hb | hb
      · subst hb; simp at h
      · exact hb
    have hdiv : v / b < b ^ l := by
      rw [Nat.div_lt_iff_lt_mul hb, ← pow_succ]
      exact h
    have hsing : digitsVal b [v % b] = v % b := by simp [digitsVal]
    show digitsVal b (natToDigits b l (v / b) ++ [v % b]) = v
    rw [digitsVal_append, ih (v / b) hdiv, hsing, List.length_singleton, pow_one,
      mul_comm]
    exact Nat.div_add_mod v b

theorem natToDigits_digitsVal (b : Nat) (ds : List Nat)
    (h : ∀ d ∈ ds, d < b) : natToDigits b ds.length (digitsVal b ds) = ds := by
  induction ds using List.reverseRecOn with
  | nil => simp [natToDigits, digitsVal]
  | append_singleton ds d ih =>
    have hd : d < b := h d (by simp)
    have hb : 0 < b := lt_of_le_of_lt (Nat.zero_le d) hd
    have hds : ∀ x ∈ ds, x < b := fun x hx => h x (by simp [hx])
    have hval : digitsVal b (ds ++ [d]) = b * digitsVal b ds + d := by
      simp only [digitsVal_append, digitsVal, List.length_singleton, pow_one,
        List.length_nil, pow_zero, mul_one]
      ring
    have hlen : (ds ++ [d]).length = ds.length + 1 := by simp
    rw [hlen, hval]
    simp only [natToDigits]
    rw [Nat.mul_add_div hb, Nat.div_eq_of_lt hd, Nat.add_zero,
      Nat.mul_add_mod, Nat.mod_eq_of_lt hd, ih hds]

/-- Splitting a fixed-length digit expansion into its high and low parts. -/
theorem natToDigits_split (b m l v : Nat) :
    natToDigits b (m + l) v =
      natToDigits b m (v / b ^ l) ++ natToDigits b l (v % b ^ l) := by
  induction l generalizing v with
  | zero => simp [natToDigits]
  | succ l ih =>
    show natToDigits b (m + l + 1) v = _
    simp only [natToDigits]
    rw [ih (v / b)]
    have h1 : v / b / b ^ l = v / b ^ (l + 1) := by
      rw [Nat.div_div_eq_div_mul, ← pow_succ']
    have h2 : v / b % b ^ l = v % b ^ (l + 1) / b := by
      rw [pow_succ, mul_comm (b ^ l) b, Nat.mod_mul_right_div_self]
    have h3 : v % b = v % b ^ (l + 1) % b := by
      rw [Nat.mod_mod_of_dvd v (dvd_pow_self b (Nat.succ_ne_zero l))]
    rw [h1, h2, h3, List.append_assoc]

theorem natToDigits_take (b m l v : Nat) :
    (natToDigits b (m + l) v).take m = natToDigits b m (v / b ^ l) := by
  rw [natToDigits_split]
  exact List.take_left' (length_natToDigits ..)

theorem natToDigits_drop (b m l v : Nat) :
    (natToDigits b (m + l) v).drop m = natToDigits b l (v % b ^ l) := by
  rw [natToDigits_split]
  exact List.drop_left' (length_natToDigits ..)

theorem length_change_base (bFrom bTo minLen : Nat) (ds : List Nat) :
    (change_base bFrom bTo minLen ds).length =
      max minLen
        ((ds.length * bitsPerDigit bFrom + (bitsPerDigit bTo - 1)) / bitsPerDigit bTo) :=
  length_natToDigits ..

theorem pyGetNat_eq_getWord (wl : List Str) (i : Nat) (h : i < wl.length) :
    pyGetNat wl i = .ok (getWord wl i) := by
  simp [pyGetNat, h, getWord, List.getD_eq_getElem?_getD, List.getElem?_eq_getElem h]

theorem getWord_mem (wl : List Str) (i : Nat) (h : i < wl.length) :
    getWord wl i ∈ wl := by
  simp only [getWord, List.getD_eq_getElem?_getD, List.getElem?_eq_getElem h,
    Option.getD_some]
  exact List.getElem_mem h

theorem pyIndex_eq_error (wl : List Str) (w : Str) (h : w ∉ wl) :
    pyIndex wl w = .error .valueError := by
  induction wl with
  | nil => rfl
  | cons x xs ih =>
    have hx : x ≠ w := fun he => h (he ▸ List.mem_cons_self x xs)
    simp [pyIndex, hx, Except.map, ih fun hm => h (List.mem_cons_of_mem x hm)]

theorem pyIndex_isOk (wl : List Str) (w : Str) (h : w ∈ wl) :
    ∃ n, pyIndex wl w = .ok n := by
  induction wl with
  | nil => simp at h
  | cons x xs ih =>
    by_cases hx : x = w
    · exact ⟨0, by simp [pyIndex, hx]⟩
    · rcases List.mem_cons.mp h with rfl | hm
      · exact absurd rfl hx
      · rcases ih hm with ⟨n, hn⟩
        exact ⟨n + 1, by simp [pyIndex, hx, hn, Except.map]⟩

theorem pyIndex_getWord (wl : List Str) (hnd : wl.Nodup) (i : Nat)
    (h : i < wl.length) : pyIndex wl (getWord wl i) = .ok i := by
  induction wl generalizing i with
  | nil => simp at h
  | cons x xs ih =>
    rcases i with _ | i
    · simp [pyIndex, getWord]
    · have hlen : i < xs.length := by simpa using h
      have hne : x ≠ getWord xs i := by
        intro he
        have hmem : x ∈ xs := he ▸ getWord_mem xs i hlen
        exact (List.nodup_cons.mp hnd).1 hmem
      have hstep : getWord (x :: xs) (i + 1) = getWord xs i := by simp [getWord]
      rw [hstep]
      simp [pyIndex, hne, Except.map, ih (List.nodup_cons.mp hnd).2 i hlen]

theorem exMapM_eq_ok_map {α β : Type} (f : α → Except MErr β) (g : α → β)
    (l : List α) (h : ∀ a ∈ l, f a = .ok (g a)) : exMapM f l = .ok (l.map g) := by
  induction l with
  | nil => rfl
  | cons a as ih =>
    have h1 := h a (List.mem_cons_self a as)
    have h2 := ih fun x hx => h x (List.mem_cons_of_mem a hx)
    simp only [exMapM, h1, h2, List.map_cons]

theorem exMapM_pyIndex_error (wl : List Str) (ws : List Str)
    (h : ∃ w ∈ ws, w ∉ wl) : exMapM (pyIndex wl) ws = .error .valueError := by
  induction ws with
  | nil => simp at h
  | cons w ws ih =>
    by_cases hw : w ∈ wl
    · have hex : ∃ x ∈ ws, x ∉ wl := by
        rcases h with ⟨x, hx, hxn⟩
        rcases List.mem_cons.mp hx with rfl | hx2
        · exact absurd hw hxn
        · exact ⟨x, hx2, hxn⟩
      rcases pyIndex_isOk wl w hw with ⟨n, hn⟩
      simp only [exMapM, hn, ih hex]
    · simp only [exMapM, pyIndex_eq_error wl w hw]

theorem countIn_eq_length (wl ws : List Str) (h : ∀ w ∈ ws, w ∈ wl) :
    countIn wl ws = ws.length := by
  simp only [countIn]
  rw [List.countP_eq_length]
  intro a ha
  simpa [List.contains] using h a ha

theorem detect_language_single (lang : Str) (wl : List Str) (s : Str)
    (h : countIn wl (splitWords s) ≠ 0) :
    detect_language [(lang, wl)] s = .ok lang := by
  simp [detect_language, bestOf, normalize_string, h]

theorem lookupWl_single (lang : Str) (wl : List Str) :
    lookupWl [(lang, wl)] lang = wl := by
  simp [lookupWl, List.find?]

theorem sanitize_ok_of_mem (reg : List (Str × List Str)) (s lang : Str)
    (hdet : detect_language reg s = .ok lang)
    (hall : ∀ w ∈ splitWords s, w ∈ lookupWl reg lang) :
    sanitize_mnemonic reg s = .ok (joinWords (splitWords s)) := by
  simp only [sanitize_mnemonic, normalize_string, hdet]
  have hfind : (splitWords s).find? (fun w => !(lookupWl reg lang).contains w) = none := by
    rw [List.find?_eq_none]
    intro x hx
    simp [List.contains, hall x hx]
  rw [hfind]

theorem splitWords_joinWords (ws : List Str) (hne : ws ≠ [])
    (hsp : ∀ w ∈ ws, ' ' ∉ w) : splitWords (joinWords ws) = ws := by
  simpa [splitWords, joinWords] using List.splitOn_intercalate ws ' ' hsp hne

theorem bitsPerDigit_two : bitsPerDigit 2 = 1 := rfl

theorem bitsPerDigit_256 : bitsPerDigit 256 = 8 := rfl

theorem bitsPerDigit_2048 : bitsPerDigit 2048 = 11 := rfl

theorem change_base_256_2 (minLen : Nat) (bs : List Nat) :
    change_base 256 2 minLen bs =
      natToDigits 2 (max minLen (bs.length * 8)) (digitsVal 256 bs) := by
  have h : max minLen ((bs.length * bitsPerDigit 256 + (bitsPerDigit 2 - 1)) / bitsPerDigit 2)
      = max minLen (bs.length * 8) := by
    rw [bitsPerDigit_256, bitsPerDigit_two]; omega
  rw [change_base, h]

theorem change_base_2_2048 (bits : List Nat) :
    change_base 2 2048 0 bits =
      natToDigits 2048 ((bits.length + 10) / 11) (digitsVal 2 bits) := by
  have h : max 0 ((bits.length * bitsPerDigit 2 + (bitsPerDigit 2048 - 1)) / bitsPerDigit 2048)
      = (bits.length + 10) / 11 := by
    rw [bitsPerDigit_two, bitsPerDigit_2048]; omega
  rw [change_base, h]

theorem change_base_2048_2 (wi : List Nat) :
    change_base 2048 2 0 wi =
      natToDigits 2 (11 * wi.length) (digitsVal 2048 wi) := by
  have h : max 0 ((wi.length * bitsPerDigit 2048 + (bitsPerDigit 2 - 1)) / bitsPerDigit 2)
      = 11 * wi.length := by
    rw [bitsPerDigit_2048, bitsPerDigit_two]; omega
  rw [change_base, h]

theorem change_base_2_256 (bits : List Nat) :
    change_base 2 256 0 bits =
      natToDigits 256 ((bits.length + 7) / 8) (digitsVal 2 bits) := by
  have h : max 0 ((bits.length * bitsPerDigit 2 + (bitsPerDigit 256 - 1)) / bitsPerDigit 256)
      = (bits.length + 7) / 8 := by
    rw [bitsPerDigit_two, bitsPerDigit_256]; omega
  rw [change_base, h]

theorem checksum_ok (H : Bytes → Bytes) (E : Bytes) (h4 : E.length % 4 = 0) :
    checksum H E = .ok ((change_base 256 2 256 (H E)).take (E.length * 8 / 32)) := by
  simp [checksum, to_bytes, h4]

theorem checksum_length (H : Bytes → Bytes) (E : Bytes)
    (hH : (H E).length = 32) (hle : E.length ≤ 1024) :
    ((change_base 256 2 256 (H E)).take (E.length * 8 / 32)).length = E.length / 4 := by
  rw [List.length_take, length_change_base, hH, bitsPerDigit_256, bitsPerDigit_two]
  omega

theorem checksum_bits_lt (H : Bytes → Bytes) (E : Bytes) :
    ∀ d ∈ (change_base 256 2 256 (H E)).take (E.length * 8 / 32), d < 2 := by
  intro d hd
  exact natToDigits_lt 2 _ _ (by norm_num) d (List.take_subset _ _ hd)

/-- Characterization of `to_mnemonic` in checksum mode on entropy of valid
length, over a 2048-word wordlist. -/
theorem to_mnemonic_checksum_ok (H : Bytes → Bytes) (wl : List Str) (E : Bytes)
    (hwl : wl.length = 2048) (h4 : E.length % 4 = 0) :
    to_mnemonic H wl E true =
      .ok (joinWords ((change_base 2 2048 0
        (change_base 256 2 (E.length * 8) E ++
          (change_base 256 2 256 (H E)).take (E.length * 8 / 32))).map (getWord wl))) := by
  have hdig : ∀ i ∈ change_base 2 2048 0
      (change_base 256 2 (E.length * 8) E ++
        (change_base 256 2 256 (H E)).take (E.length * 8 / 32)), i < wl.length := by
    intro i hi
    rw [hwl]
    exact natToDigits_lt 2048 _ _ (by norm_num) i hi
  have hmap := exMapM_eq_ok_map (pyGetNat wl) (getWord wl) _
    (fun i hi => pyGetNat_eq_getWord wl i (hdig i hi))
  simp only [to_mnemonic, to_bytes, if_true, checksum_ok H E h4, hmap,
    normalize_string]

/-- Characterization of the checksum branch of `to_entropy`, given the
sanitization and index-mapping results. -/
theorem to_entropy_checksum_eq (H : Bytes → Bytes) (reg : List (Str × List Str))
    (selfWl : List Str) (sentence s2 : Str) (wi : List Nat) (m : Nat)
    (hsan : sanitize_mnemonic reg sentence = .ok s2)
    (hmap : exMapM (pyIndex selfWl) (splitWords s2) = .ok wi)
    (hlen : wi.length = 3 * m) (hm : 0 < m) (hwi : ∀ i ∈ wi, i < 2048) :
    to_entropy H reg selfWl sentence true =
      (if natToDigits 2 m (digitsVal 2048 wi % 2 ^ m) =
          (change_base 256 2 256
            (H (natToDigits 256 (4 * m) (digitsVal 2048 wi / 2 ^ m)))).take m
        then .ok (natToDigits 256 (4 * m) (digitsVal 2048 wi / 2 ^ m))
        else .error .invalidChecksum) := by
  have hV : digitsVal 2048 wi < 2 ^ (33 * m) := by
    have h1 : digitsVal 2048 wi < 2048 ^ wi.length :=
      digitsVal_lt 2048 wi (by norm_num) hwi
    have h2 : (2048 : Nat) ^ wi.length = 2 ^ (33 * m) := by
      rw [hlen, show (2048 : Nat) = 2 ^ 11 from by norm_num, ← pow_mul]
      ring_nf
    exact h2 ▸ h1
  have hbin : change_base 2048 2 0 wi =
      natToDigits 2 (33 * m) (digitsVal 2048 wi) := by
    rw [change_base_2048_2, hlen]; ring_nf
  have hbinlen : (change_base 2048 2 0 wi).length = 33 * m := by
    rw [hbin, length_natToDigits]
  have hk : ((change_base 2048 2 0 wi).length + 32) / 33 = m := by
    rw [hbinlen]; omega
  have hsub2 : (change_base 2048 2 0 wi).length - m = 32 * m := by
    rw [hbinlen]; omega
  have htake : (change_base 2048 2 0 wi).take (32 * m) =
      natToDigits 2 (32 * m) (digitsVal 2048 wi / 2 ^ m) := by
    rw [hbin, show 33 * m = 32 * m + m from by ring, natToDigits_take]
  have hdrop : (change_base 2048 2 0 wi).drop (32 * m) =
      natToDigits 2 m (digitsVal 2048 wi % 2 ^ m) := by
    rw [hbin, show 33 * m = 32 * m + m from by ring, natToDigits_drop]
  have hdivlt : digitsVal 2048 wi / 2 ^ m < 2 ^ (32 * m) := by
    rw [Nat.div_lt_iff_lt_mul (pow_pos (by norm_num : (0 : Nat) < 2) m), ← pow_add,
      show 32 * m + m = 33 * m from by ring]
    exact hV
  have hent : change_base 2 256 ((0 : Nat)) (natToDigits 2 (32 * m) (digitsVal 2048 wi / 2 ^ m)) =
      natToDigits 256 (4 * m) (digitsVal 2048 wi / 2 ^ m) := by
    rw [change_base_2_256, length_natToDigits,
      digitsVal_natToDigits 2 (32 * m) _ hdivlt,
      show (32 * m + 7) / 8 = 4 * m from by omega]
  have hentlen : (natToDigits 256 (4 * m) (digitsVal 2048 wi / 2 ^ m)).length = 4 * m :=
    length_natToDigits ..
  have hcs : checksum H (natToDigits 256 (4 * m) (digitsVal 2048 wi / 2 ^ m)) =
      .ok ((change_base 256 2 256
        (H (natToDigits 256 (4 * m) (digitsVal 2048 wi / 2 ^ m)))).take m) := by
    rw [checksum_ok _ _ (by rw [hentlen]; omega), hentlen,
      show 4 * m * 8 / 32 = m from by omega]
  simp only [to_entropy, hsan, hmap, if_true, hk, hsub2, htake, hdrop, hent, hcs]

theorem exMapM_pyIndex_map_getWord (wl : List Str) (hnd : wl.Nodup)
    (wi : List Nat) (hwi : ∀ i ∈ wi, i < wl.length) :
    exMapM (pyIndex wl) (wi.map (getWord wl)) = .ok wi := by
  induction wi with
  | nil => rfl
  | cons i is ih =>
    have h1 := pyIndex_getWord wl hnd i (hwi i (List.mem_cons_self i is))
    have h2 := ih fun x hx => hwi x (List.mem_cons_of_mem i hx)
    simp only [List.map_cons, exMapM, h1, h2]

/-- The sanitize-and-index stage of `to_entropy` recovers the index list a
mnemonic was built from, in the single-language registry setting. -/
theorem decode_stage_ok (wl : List Str) (lang : Str) (wi : List Nat)
    (hwl : wl.length = 2048) (hnd : wl.Nodup) (hsp : ∀ w ∈ wl, ' ' ∉ w)
    (hwilt : ∀ i ∈ wi, i < 2048) (hne : wi ≠ []) :
    sanitize_mnemonic [(lang, wl)] (joinWords (wi.map (getWord wl))) =
        .ok (joinWords (wi.map (getWord wl))) ∧
      exMapM (pyIndex wl) (splitWords (joinWords (wi.map (getWord wl)))) = .ok wi := by
  have hwsne : wi.map (getWord wl) ≠ [] := by
    simpa using hne
  have hwsmem : ∀ w ∈ wi.map (getWord wl), w ∈ wl := by
    intro w hw
    rcases List.mem_map.mp hw with ⟨i, hi, rfl⟩
    exact getWord_mem wl i (by rw [hwl]; exact hwilt i hi)
  have hwssp : ∀ w ∈ wi.map (getWord wl), ' ' ∉ w := fun w hw => hsp w (hwsmem w hw)
  have hsplit : splitWords (joinWords (wi.map (getWord wl))) = wi.map (getWord wl) :=
    splitWords_joinWords _ hwsne hwssp
  have hdet : detect_language [(lang, wl)] (joinWords (wi.map (getWord wl))) = .ok lang := by
    apply detect_language_single
    rw [hsplit, countIn_eq_length wl _ hwsmem]
    simpa using hne
  have hsan : sanitize_mnemonic [(lang, wl)] (joinWords (wi.map (getWord wl))) =
      .ok (joinWords (wi.map (getWord wl))) := by
    have h := sanitize_ok_of_mem [(lang, wl)] (joinWords (wi.map (getWord wl))) lang hdet
      (by rw [hsplit, lookupWl_single]; exact hwsmem)
    rw [hsplit] at h
    exact h
  refine ⟨hsan, ?_⟩
  rw [hsplit]
  exact exMapM_pyIndex_map_getWord wl hnd wi fun i hi => by
    rw [hwl]; exact hwilt i hi

/-- C1: decoding the encoding returns the original entropy.  `H` is the
SHA-256 primitive (32-byte digests), `wl` the 2048-word duplicate-free,
space-free wordlist of the registered language `lang`, and the entropy `E`
has byte length `4 * m` (the claim's sizes are `m ∈ {4,5,6,7,8}`). -/
theorem c1_roundtrip (H : Bytes → Bytes) (wl : List Str) (lang : Str)
    (E : Bytes) (m : Nat) (hwl : wl.length = 2048) (hnd : wl.Nodup)
    (hsp : ∀ w ∈ wl, ' ' ∉ w) (hE : ∀ b ∈ E, b < 256)
    (hlen : E.length = 4 * m) (hm : 0 < m) (hm256 : m ≤ 256)
    (hH : (H E).length = 32) :
    (to_mnemonic H wl E true).bind (fun s => to_entropy H [(lang, wl)] wl s true) =
      .ok E := by
  have h4 : E.length % 4 = 0 := by omega
  rw [to_mnemonic_checksum_ok H wl E hwl h4]
  have hfinal : to_entropy H [(lang, wl)] wl (joinWords ((change_base 2 2048 0
      (change_base 256 2 (E.length * 8) E ++
        (change_base 256 2 256 (H E)).take (E.length * 8 / 32))).map (getWord wl)))
      true = .ok E := by
    set cs := (change_base 256 2 256 (H E)).take (E.length * 8 / 32) with hcs_def
    set bits := change_base 256 2 (E.length * 8) E with hbits_def
    set wi := change_base 2 2048 0 (bits ++ cs) with hwi_def
    have hcslen : cs.length = m := by
      rw [hcs_def, checksum_length H E hH (by omega)]; omega
    have hcslt2 : ∀ d ∈ cs, d < 2 := checksum_bits_lt H E
    have hbits_eq : bits = natToDigits 2 (E.length * 8) (digitsVal 256 E) := by
      rw [hbits_def, change_base_256_2, max_self]
    have hbitslen : bits.length = 32 * m := by
      rw [hbits_eq, length_natToDigits]; omega
    have hbitslt2 : ∀ d ∈ bits, d < 2 := by
      rw [hbits_eq]; exact natToDigits_lt 2 _ _ (by norm_num)
    have hbinlen : (bits ++ cs).length = 33 * m := by
      rw [List.length_append, hbitslen, hcslen]; omega
    have hwilen : wi.length = 3 * m := by
      rw [hwi_def, length_change_base, bitsPerDigit_two, bitsPerDigit_2048, hbinlen]
      omega
    have hwilt : ∀ i ∈ wi, i < 2048 := fun i hi =>
      natToDigits_lt 2048 _ _ (by norm_num) i hi
    have hwine : wi ≠ [] := by
      intro hcon
      rw [hcon] at hwilen
      simp at hwilen
      omega
    obtain ⟨hsan, hmapM⟩ := decode_stage_ok wl lang wi hwl hnd hsp hwilt hwine
    rw [to_entropy_checksum_eq H [(lang, wl)] wl _ _ wi m hsan hmapM hwilen hm hwilt]
    have hWlt : digitsVal 256 E < 2 ^ (32 * m) := by
      calc digitsVal 256 E < 256 ^ E.length := digitsVal_lt 256 E (by norm_num) hE
        _ = 2 ^ (32 * m) := by
            rw [show (256 : Nat) = 2 ^ 8 from by norm_num, ← pow_mul, hlen]
            ring_nf
    have hbitsval : digitsVal 2 bits = digitsVal 256 E := by
      rw [hbits_eq]
      exact digitsVal_natToDigits 2 _ _ (by rw [show E.length * 8 = 32 * m from by omega]; exact hWlt)
    have hV2lt : digitsVal 2 (bits ++ cs) < 2 ^ (33 * m) := by
      have hd2 : ∀ d ∈ bits ++ cs, d < 2 := by
        intro d hd
        rcases List.mem_append.mp hd with hd | hd
        · exact hbitslt2 d hd
        · exact hcslt2 d hd
      have := digitsVal_lt 2 (bits ++ cs) (by norm_num) hd2
      rwa [hbinlen] at this
    have hwival : digitsVal 2048 wi = digitsVal 2 (bits ++ cs) := by
      have hwi_eq : wi = natToDigits 2048 (3 * m) (digitsVal 2 (bits ++ cs)) := by
        rw [hwi_def, change_base_2_2048, hbinlen,
          show (33 * m + 10) / 11 = 3 * m from by omega]
      rw [hwi_eq]
      apply digitsVal_natToDigits
      calc digitsVal 2 (bits ++ cs) < 2 ^ (33 * m) := hV2lt
        _ = 2048 ^ (3 * m) := by
            rw [show (2048 : Nat) = 2 ^ 11 from by norm_num, ← pow_mul]
            ring_nf
    have hcsval_lt : digitsVal 2 cs < 2 ^ m := by
      have := digitsVal_lt 2 cs (by norm_num) hcslt2
      rwa [hcslen] at this
    have happ : digitsVal 2 (bits ++ cs) =
        2 ^ m * digitsVal 256 E + digitsVal 2 cs := by
      rw [digitsVal_append, hcslen, hbitsval]; ring
    have hdiv : digitsVal 2048 wi / 2 ^ m = digitsVal 256 E := by
      rw [hwival, happ, Nat.mul_add_div (pow_pos (by norm_num) m),
        Nat.div_eq_of_lt hcsval_lt, Nat.add_zero]
    have hmod : digitsVal 2048 wi % 2 ^ m = digitsVal 2 cs := by
      rw [hwival, happ, Nat.mul_add_mod, Nat.mod_eq_of_lt hcsval_lt]
    have hentE : natToDigits 256 (4 * m) (digitsVal 2048 wi / 2 ^ m) = E := by
      rw [hdiv, show 4 * m = E.length from hlen.symm, natToDigits_digitsVal 256 E hE]
    have hcsPart : natToDigits 2 m (digitsVal 2048 wi % 2 ^ m) = cs := by
      rw [hmod, show m = cs.length from hcslen.symm, natToDigits_digitsVal 2 cs hcslt2]
    rw [hentE, hcsPart, if_pos (by rw [hcs_def, show E.length * 8 / 32 = m from by omega])]
  simpa [Except.bind] using hfinal

theorem natToDigits_flatMap (bs : List Nat) (h : ∀ b ∈ bs, b < 256) :
    natToDigits 2 (bs.length * 8) (digitsVal 256 bs) =
      bs.flatMap (natToDigits 2 8) := by
  induction bs with
  | nil => simp [natToDigits, digitsVal]
  | cons b bs ih =>
    have hb : b < 256 := h b (List.mem_cons_self b bs)
    have hbs : ∀ x ∈ bs, x < 256 := fun x hx => h x (List.mem_cons_of_mem b hx)
    have hval : digitsVal 256 bs < 2 ^ (bs.length * 8) := by
      calc digitsVal 256 bs < 256 ^ bs.length := digitsVal_lt 256 bs (by norm_num) hbs
        _ = 2 ^ (bs.length * 8) := by
            rw [show (256 : Nat) = 2 ^ 8 from by norm_num, ← pow_mul]
            ring_nf
    have hpow : (256 : Nat) ^ bs.length = 2 ^ (bs.length * 8) := by
      rw [show (256 : Nat) = 2 ^ 8 from by norm_num, ← pow_mul]
      ring_nf
    have hcons : digitsVal 256 (b :: bs) =
        b * 2 ^ (bs.length * 8) + digitsVal 256 bs := by
      rw [digitsVal_cons, hpow]
    have hsplitlen : (b :: bs).length * 8 = 8 + bs.length * 8 := by
      simp [List.length_cons]; ring
    rw [hsplitlen, hcons, natToDigits_split]
    have hdiv : (b * 2 ^ (bs.length * 8) + digitsVal 256 bs) / 2 ^ (bs.length * 8) = b := by
      rw [mul_comm b, Nat.mul_add_div (pow_pos (by norm_num) _),
        Nat.div_eq_of_lt hval, Nat.add_zero]
    have hmod : (b * 2 ^ (bs.length * 8) + digitsVal 256 bs) % 2 ^ (bs.length * 8)
        = digitsVal 256 bs := by
      rw [mul_comm b, Nat.mul_add_mod, Nat.mod_eq_of_lt hval]
    rw [hdiv, hmod, ih hbs, List.flatMap_cons]

/-- C4: `checksum` fails with the invalid-length error exactly when the
byte length is not a multiple of 4, and otherwise returns the first
`len(data) * 8 / 32` bits of the 256-bit SHA-256 digest `H data`,
expressed as a bit string (8 bits per digest byte, big-endian). -/
theorem c4_checksum (H : Bytes → Bytes) (data : Bytes)
    (hH : (H data).length = 32) (hHb : ∀ b ∈ H data, b < 256) :
    (checksum H data = .error .invalidLength ↔ data.length % 4 ≠ 0) ∧
    (data.length % 4 = 0 →
      checksum H data =
        .ok (((H data).flatMap (natToDigits 2 8)).take (data.length * 8 / 32))) := by
  have hbits : change_base 256 2 256 (H data) = (H data).flatMap (natToDigits 2 8) := by
    rw [change_base_256_2]
    have hmax : max 256 ((H data).length * 8) = (H data).length * 8 := by
      rw [hH]; omega
    rw [hmax, natToDigits_flatMap (H data) hHb]
  constructor
  · constructor
    · intro he
      by_contra h4
      have h0 : data.length % 4 = 0 := by omega
      rw [checksum_ok H data h0] at he
      exact Except.noConfusion he
    · intro h4
      simp only [checksum, to_bytes, if_pos (show data.length % 4 > 0 from by omega)]
  · intro h4
    rw [checksum_ok H data h4, hbits]

/-- C2: in checksum mode, `to_entropy` splits the re-based bit string of a
sanitized sentence 32:1 into an entropy part and trailing checksum bits,
recomputes the checksum of the extracted entropy, and fails with the
invalid-checksum error whenever the embedded checksum bits differ from the
recomputed ones (`digitsVal 2048 wi / 2 ^ m` is the value of the leading
32·m entropy bits of the 33·m-bit string of a 3·m-word sentence and
`digitsVal 2048 wi % 2 ^ m` the value of its m trailing checksum bits); in
particular a valid mnemonic whose last word is replaced by one whose index
differs in a checksum bit decodes to this error — the witness exhibits
such a flip. -/
theorem c2_checksum_mismatch (H : Bytes → Bytes) (reg : List (Str × List Str))
    (selfWl : List Str) (sentence s2 : Str) (wi : List Nat) (m : Nat)
    (hsan : sanitize_mnemonic reg sentence = .ok s2)
    (hmap : exMapM (pyIndex selfWl) (splitWords s2) = .ok wi)
    (hlen : wi.length = 3 * m) (hm : 0 < m) (hwi : ∀ i ∈ wi, i < 2048)
    (hmis : natToDigits 2 m (digitsVal 2048 wi % 2 ^ m) ≠
      (change_base 256 2 256
        (H (natToDigits 256 (4 * m) (digitsVal 2048 wi / 2 ^ m)))).take m) :
    to_entropy H reg selfWl sentence true = .error .invalidChecksum := by
  rw [to_entropy_checksum_eq H reg selfWl sentence s2 wi m hsan hmap hlen hm hwi,
    if_neg hmis]

/-- C6: in checksum mode, on entropy of byte length `4 * m`, `to_mnemonic`
returns a single-space-separated sentence of exactly
`(len(E) * 8 + len(E) * 8 / 32) / 11` words, each a member of the instance
wordlist — with no restriction on the leading bits of `E` (a leading-zero
witness is given separately). -/
theorem c6_to_mnemonic_words (H : Bytes → Bytes) (wl : List Str) (E : Bytes)
    (m : Nat) (hwl : wl.length = 2048) (hsp : ∀ w ∈ wl, ' ' ∉ w)
    (hlen : E.length = 4 * m) (hm : 0 < m) (hm256 : m ≤ 256)
    (hH : (H E).length = 32) :
    ∃ s, to_mnemonic H wl E true = .ok s ∧
      (splitWords s).length = (E.length * 8 + E.length * 8 / 32) / 11 ∧
      ∀ w ∈ splitWords s, w ∈ wl := by
  have h4 : E.length % 4 = 0 := by omega
  refine ⟨_, to_mnemonic_checksum_ok H wl E hwl h4, ?_⟩
  set cs := (change_base 256 2 256 (H E)).take (E.length * 8 / 32) with hcs_def
  set bits := change_base 256 2 (E.length * 8) E with hbits_def
  set wi := change_base 2 2048 0 (bits ++ cs) with hwi_def
  have hcslen : cs.length = m := by
    rw [hcs_def, checksum_length H E hH (by omega)]; omega
  have hbitslen : bits.length = 32 * m := by
    rw [hbits_def, length_change_base, bitsPerDigit_256, bitsPerDigit_two]
    omega
  have hbinlen : (bits ++ cs).length = 33 * m := by
    rw [List.length_append, hbitslen, hcslen]; omega
  have hwilen : wi.length = 3 * m := by
    rw [hwi_def, length_change_base, bitsPerDigit_two, bitsPerDigit_2048, hbinlen]
    omega
  have hwilt : ∀ i ∈ wi, i < 2048 := fun i hi =>
    natToDigits_lt 2048 _ _ (by norm_num) i hi
  have hwsmem : ∀ w ∈ wi.map (getWord wl), w ∈ wl := by
    intro w hw
    rcases List.mem_map.mp hw with ⟨i, hi, rfl⟩
    exact getWord_mem wl i (by rw [hwl]; exact hwilt i hi)
  have hwsne : wi.map (getWord wl) ≠ [] := by
    intro hcon
    have : wi = [] := by simpa using hcon
    rw [this] at hwilen
    simp at hwilen
    omega
  have hsplit : splitWords (joinWords (wi.map (getWord wl))) = wi.map (getWord wl) :=
    splitWords_joinWords _ hwsne fun w hw => hsp w (hwsmem w hw)
  rw [hsplit]
  refine ⟨?_, hwsmem⟩
  rw [List.length_map, hwilen, hlen]
  omega

theorem pbkdf2U_length (prf : Bytes → Bytes → Bytes) (pw salt : Bytes)
    (hprf : ∀ k msg, (prf k msg).length = 64) (i : Nat) :
    (pbkdf2U prf pw salt i).1.length = 64 ∧ (pbkdf2U prf pw salt i).2.length = 64 := by
  induction i with
  | zero => exact ⟨hprf .., hprf ..⟩
  | succ i ih =>
    refine ⟨hprf .., ?_⟩
    show (List.zipWith _ (pbkdf2U prf pw salt i).2 (prf pw (pbkdf2U prf pw salt i).1)).length = 64
    rw [List.length_zipWith, ih.2, hprf]
    omega

/-- C3: on a sentence that sanitizes successfully, `to_seed` returns the
64-byte PBKDF2 value computed with the HMAC-SHA512 primitive `prf`,
password the byte encoding of the normalized sanitized sentence, salt the
bytes of "mnemonic" followed by the passphrase bytes, and 2048 rounds; the
result is deterministic in the inputs (restated as the equality of two
calls, immediate in the pure model). -/
theorem c3_to_seed (prf : Bytes → Bytes → Bytes) (enc : Str → Bytes)
    (reg : List (Str × List Str)) (sentence s2 : Str) (passphrase : Bytes)
    (hprf : ∀ k msg, (prf k msg).length = 64)
    (hsan : sanitize_mnemonic reg sentence = .ok s2) :
    to_seed prf enc reg sentence passphrase =
        .ok (PBKDF2_read64 prf (enc (normalize_string s2))
          (mnemonicSaltBytes ++ passphrase) PBKDF2_ROUNDS) ∧
      (PBKDF2_read64 prf (enc (normalize_string s2))
        (mnemonicSaltBytes ++ passphrase) PBKDF2_ROUNDS).length = 64 ∧
      to_seed prf enc reg sentence passphrase =
        to_seed prf enc reg sentence passphrase := by
  refine ⟨by simp only [to_seed, hsan], ?_, rfl⟩
  show ((pbkdf2U prf _ _ (PBKDF2_ROUNDS - 1)).2.take 64).length = 64
  rw [List.length_take, (pbkdf2U_length prf _ _ hprf (PBKDF2_ROUNDS - 1)).2]
  omega

/-- C7: after language detection succeeds, sanitization fails with the
unrecognized-word error, naming the first offending word, whenever some
word of the split sentence is missing from the detected language's
wordlist; when every word is a member it returns the words rejoined with
single spaces (the source normalizes with NFKD, the identity on
normalized text in this model). -/
theorem c7_sanitize (reg : List (Str × List Str)) (sentence lang : Str)
    (hdet : detect_language reg sentence = .ok lang) :
    ((∃ w ∈ splitWords sentence, w ∉ lookupWl reg lang) →
      ∃ w ∈ splitWords sentence, w ∉ lookupWl reg lang ∧
        sanitize_mnemonic reg sentence = .error (.unrecognizedWord w)) ∧
    ((∀ w ∈ splitWords sentence, w ∈ lookupWl reg lang) →
      sanitize_mnemonic reg sentence = .ok (joinWords (splitWords sentence))) := by
  constructor
  · intro hex
    have hsome : ((splitWords sentence).find?
        (fun w => !(lookupWl reg lang).contains w)).isSome := by
      rw [List.find?_isSome]
      rcases hex with ⟨w, hw, hwn⟩
      exact ⟨w, hw, by simp [List.contains, hwn]⟩
    rcases Option.isSome_iff_exists.mp hsome with ⟨w, hw⟩
    refine ⟨w, List.mem_of_find?_eq_some hw, ?_, ?_⟩
    · have := List.find?_some hw
      simpa [List.contains] using this
    · simp only [sanitize_mnemonic, normalize_string, hdet, hw]
  · intro hall
    exact sanitize_ok_of_mem reg sentence lang hdet hall

theorem bestOf_ge_acc (ws : List Str) (acc : Str × Nat)
    (ps : List (Str × List Str)) : acc.2 ≤ (bestOf ws acc ps).2 := by
  induction ps generalizing acc with
  | nil => exact Nat.le_refl _
  | cons p ps ih =>
    by_cases hp : countIn p.2 ws > acc.2
    · calc acc.2 ≤ countIn p.2 ws := Nat.le_of_lt hp
        _ = ((p.1, countIn p.2 ws) : Str × Nat).2 := rfl
        _ ≤ _ := by
            have := ih (p.1, countIn p.2 ws)
            simpa [bestOf, hp] using this
    · have := ih acc
      simpa [bestOf, hp] using this

theorem bestOf_ge_all (ws : List Str) (acc : Str × Nat)
    (ps : List (Str × List Str)) :
    ∀ p ∈ ps, countIn p.2 ws ≤ (bestOf ws acc ps).2 := by
  induction ps generalizing acc with
  | nil => simp
  | cons q qs ih =>
    intro p hp
    rcases List.mem_cons.mp hp with rfl | hmem
    · by_cases hq : countIn p.2 ws > acc.2
      · have h1 := bestOf_ge_acc ws (p.1, countIn p.2 ws) qs
        simpa [bestOf, hq] using h1
      · have h1 := bestOf_ge_acc ws acc qs
        have h2 : countIn p.2 ws ≤ acc.2 := Nat.le_of_not_lt hq
        have := Nat.le_trans h2 h1
        simpa [bestOf, hq] using this
    · by_cases hq : countIn q.2 ws > acc.2
      · have := ih (q.1, countIn q.2 ws) p hmem
        simpa [bestOf, hq] using this
      · have := ih acc p hmem
        simpa [bestOf, hq] using this

theorem bestOf_mem (ws : List Str) (acc : Str × Nat)
    (ps : List (Str × List Str)) :
    bestOf ws acc ps = acc ∨
      ∃ p ∈ ps, bestOf ws acc ps = (p.1, countIn p.2 ws) := by
  induction ps generalizing acc with
  | nil => exact Or.inl rfl
  | cons q qs ih =>
    by_cases hq : countIn q.2 ws > acc.2
    · have hstep : bestOf ws acc (q :: qs) = bestOf ws (q.1, countIn q.2 ws) qs := by
        simp [bestOf, hq]
      rcases ih (q.1, countIn q.2 ws) with h | ⟨p, hp, h⟩
      · exact Or.inr ⟨q, List.mem_cons_self q qs, hstep.trans h⟩
      · exact Or.inr ⟨p, List.mem_cons_of_mem q hp, hstep.trans h⟩
    · have hstep : bestOf ws acc (q :: qs) = bestOf ws acc qs := by
        simp [bestOf, hq]
      rcases ih acc with h | ⟨p, hp, h⟩
      · exact Or.inl (hstep.trans h)
      · exact Or.inr ⟨p, List.mem_cons_of_mem q hp, hstep.trans h⟩

/-- C8: on a nonempty registry, `detect_language` counts for each
registered wordlist how many input words it contains, fails with the
unknown-language error exactly when every count is zero, and otherwise
returns a language achieving the maximum count. -/
theorem detect_language_cons (r : Str × List Str) (rs : List (Str × List Str))
    (s : Str) :
    detect_language (r :: rs) s =
      (if (bestOf (splitWords s) (r.1, countIn r.2 (splitWords s)) rs).2 = 0
        then .error .unknownLanguage
        else .ok (bestOf (splitWords s) (r.1, countIn r.2 (splitWords s)) rs).1) :=
  rfl

theorem c8_detect_language (reg : List (Str × List Str)) (s : Str)
    (hne : reg ≠ []) :
    (detect_language reg s = .error .unknownLanguage ↔
      ∀ p ∈ reg, countIn p.2 (splitWords s) = 0) ∧
    (∀ lang, detect_language reg s = .ok lang →
      ∃ p ∈ reg, p.1 = lang ∧
        ∀ q ∈ reg, countIn q.2 (splitWords s) ≤ countIn p.2 (splitWords s)) := by
  rcases List.exists_cons_of_ne_nil hne with ⟨r, rs, rfl⟩
  have hbest0 : ∀ p ∈ r :: rs, countIn p.2 (splitWords s) ≤
      (bestOf (splitWords s) (r.1, countIn r.2 (splitWords s)) rs).2 := by
    intro p hp
    rcases List.mem_cons.mp hp with rfl | hmem
    · exact bestOf_ge_acc (splitWords s) (p.1, countIn p.2 (splitWords s)) rs
    · exact bestOf_ge_all _ _ _ p hmem
  have hform : bestOf (splitWords s) (r.1, countIn r.2 (splitWords s)) rs =
        (r.1, countIn r.2 (splitWords s)) ∨
      ∃ p ∈ rs, bestOf (splitWords s) (r.1, countIn r.2 (splitWords s)) rs =
        (p.1, countIn p.2 (splitWords s)) := bestOf_mem ..
  constructor
  · constructor
    · intro he p hp
      have hz : (bestOf (splitWords s) (r.1, countIn r.2 (splitWords s)) rs).2 = 0 := by
        by_contra hnz
        rw [detect_language_cons, if_neg hnz] at he
        exact Except.noConfusion he
      have := hbest0 p hp
      omega
    · intro hall
      have hz : (bestOf (splitWords s) (r.1, countIn r.2 (splitWords s)) rs).2 = 0 := by
        rcases hform with h | ⟨p, hp, h⟩
        · rw [h]
          exact hall r (List.mem_cons_self r rs)
        · rw [h]
          exact hall p (List.mem_cons_of_mem r hp)
      rw [detect_language_cons, if_pos hz]
  · intro lang hlang
    have hnz : (bestOf (splitWords s) (r.1, countIn r.2 (splitWords s)) rs).2 ≠ 0 := by
      intro hz
      rw [detect_language_cons, if_pos hz] at hlang
      exact Except.noConfusion hlang
    have hl : (bestOf (splitWords s) (r.1, countIn r.2 (splitWords s)) rs).1 = lang := by
      rw [detect_language_cons, if_neg hnz] at hlang
      exact Except.ok.inj hlang
    rcases hform with h | ⟨p, hp, h⟩
    · refine ⟨r, List.mem_cons_self r rs, ?_, ?_⟩
      · rw [← hl, h]
      · intro q hq
        have := hbest0 q hq
        rw [h] at this
        exact this
    · refine ⟨p, List.mem_cons_of_mem r hp, ?_, ?_⟩
      · rw [← hl, h]
      · intro q hq
        have := hbest0 q hq
        rw [h] at this
        exact this

theorem to_mnemonic_isOk (H : Bytes → Bytes) (wl : List Str) (data : Bytes)
    (add_checksum : Bool) (hwl : wl.length = 2048) (h4 : data.length % 4 = 0) :
    ∃ s, to_mnemonic H wl data add_checksum = .ok s := by
  cases add_checksum
  · have hmap := exMapM_eq_ok_map (pyGetNat wl) (getWord wl)
      (change_base 256 2048 0 (to_bytes data))
      (fun i hi => pyGetNat_eq_getWord wl i
        (by rw [hwl]; exact natToDigits_lt 2048 _ _ (by norm_num) i hi))
    refine ⟨normalize_string (joinWords
      ((change_base 256 2048 0 (to_bytes data)).map (getWord wl))), ?_⟩
    simp only [to_mnemonic, Bool.false_eq_true, if_false, hmap]
  · exact ⟨_, to_mnemonic_checksum_ok H wl data hwl h4⟩

/-- C9: `generate` fails with the invalid-length error exactly when the
strength is not divisible by 32, and otherwise returns the mnemonic
encoding (`to_mnemonic`) of the `strength / 8` random bytes drawn from
the entropy source. -/
theorem c9_generate (H : Bytes → Bytes) (wl : List Str) (strength : Nat)
    (add_checksum : Bool) (randomBytes : Bytes) (hwl : wl.length = 2048)
    (hrb : randomBytes.length = strength / 8) :
    (generate H wl strength add_checksum randomBytes = .error .invalidLength ↔
      strength % 32 ≠ 0) ∧
    (strength % 32 = 0 →
      generate H wl strength add_checksum randomBytes =
        to_mnemonic H wl randomBytes add_checksum) := by
  constructor
  · constructor
    · intro he
      by_contra h32
      have h0 : strength % 32 = 0 := by omega
      have h4 : randomBytes.length % 4 = 0 := by omega
      rcases to_mnemonic_isOk H wl randomBytes add_checksum hwl h4 with ⟨s, hs⟩
      rw [generate, if_neg (by omega), hs] at he
      exact Except.noConfusion he
    · intro h32
      rw [generate, if_pos (by omega)]
  · intro h0
    rw [generate, if_neg (by omega)]

/-- C5 (amended): `to_entropy` maps each word of the sanitized sentence to
its index in the instance wordlist `self._wordlist`, not in the wordlist
of the detected language: when some sanitized word is missing from the
instance wordlist the decode fails with Python `list.index`'s
`ValueError`, and when all are present the decode proceeds on the indices
drawn from the instance wordlist (shown here for the no-checksum
branch). -/
theorem c5_instance_wordlist (H : Bytes → Bytes) (reg : List (Str × List Str))
    (selfWl : List Str) (sentence s2 : Str)
    (hsan : sanitize_mnemonic reg sentence = .ok s2) :
    ((∃ w ∈ splitWords s2, w ∉ selfWl) →
      to_entropy H reg selfWl sentence false = .error .valueError) ∧
    (∀ wi, exMapM (pyIndex selfWl) (splitWords s2) = .ok wi →
      to_entropy H reg selfWl sentence false = .ok (change_base 2048 256 0 wi)) := by
  constructor
  · intro hex
    simp only [to_entropy, hsan, exMapM_pyIndex_error selfWl _ hex]
  · intro wi hmap
    simp only [to_entropy, hsan, hmap, Bool.false_eq_true, if_false]

/-- C10: `word` is Python list indexing on the 2048-entry wordlist: an
index `0 ≤ i < 2048` yields the entry at `i`, an index `i ≥ 2048` raises
`IndexError`, and a negative index `-2048 ≤ i < 0` yields the entry at
`2048 + i`, counted from the end, instead of failing. -/
theorem c10_word (wl : List Str) (i : Int) (hwl : wl.length = 2048) :
    (0 ≤ i → i < 2048 → word wl i = .ok (getWord wl i.toNat)) ∧
    (2048 ≤ i → word wl i = .error .indexError) ∧
    (-2048 ≤ i → i < 0 → word wl i = .ok (getWord wl (2048 + i).toNat)) := by
  refine ⟨?_, ?_, ?_⟩
  · intro h0 hlt
    have hj : ¬ i < 0 := by omega
    have hb : 0 ≤ i ∧ i.toNat < wl.length := by
      constructor
      · exact h0
      · rw [hwl]; omega
    simp only [word, pyGetInt, if_neg hj, dif_pos hb]
    congr 1
    have := hb.2
    simp [getWord, List.getD_eq_getElem?_getD, List.getElem?_eq_getElem this]
  · intro hge
    have hj : ¬ i < 0 := by omega
    have hb : ¬ (0 ≤ i ∧ i.toNat < wl.length) := by
      rw [hwl]; omega
    simp only [word, pyGetInt, if_neg hj, dif_neg hb]
  · intro hge hlt
    have hj : i < 0 := hlt
    have hb : 0 ≤ (wl.length : Int) + i ∧ ((wl.length : Int) + i).toNat < wl.length := by
      constructor
      · omega
      · omega
    simp only [word, pyGetInt, if_pos hj, dif_pos hb]
    have h2 : ((wl.length : Int) + i).toNat = ((2048 : Int) + i).toNat := by omega
    have h3 : ((2048 : Int) + i).toNat < wl.length := by omega
    have h4 : wl.get ⟨((wl.length : Int) + i).toNat, hb.2⟩ =
        getWord wl ((2048 : Int) + i).toNat := by
      simp only [List.get_eq_getElem, getWord, List.getD_eq_getElem?_getD,
        List.getElem?_eq_getElem h3, Option.getD_some]
      congr 1
    rw [h4]

theorem wlW_length : wlW.length = 2048 := by simp [wlW]

theorem wlW_nodup : wlW.Nodup := by
  have hinj : Function.Injective (fun i => 'a' :: List.replicate i 'b') := by
    intro i j hij
    have := congrArg List.length hij
    simpa using this
  exact List.Nodup.map hinj (List.nodup_range 2048)

theorem wlW_nospace : ∀ w ∈ wlW, ' ' ∉ w := by
  intro w hw
  rcases List.mem_map.mp hw with ⟨i, _, rfl⟩
  intro hmem
  rcases List.mem_cons.mp hmem with h | h
  · exact absurd h (by decide)
  · exact absurd (List.eq_of_mem_replicate h) (by decide)

/-- C5 counterexample: with the registry `regAB` (language "e" owning
`{"a"}`, language "s" owning `{"b"}`) and a codec instance constructed
over the "e" wordlist, the sentence "b" resolves to language "s",
sanitizes successfully and every sentence word lies in the resolved
wordlist — yet `to_entropy` fails with `list.index`'s `ValueError`,
because the source maps words through `self._wordlist`, the instance
wordlist, not the resolved one. -/
theorem c5_counterexample :
    detect_language regAB ['b'] = .ok ['s'] ∧
    sanitize_mnemonic regAB ['b'] = .ok ['b'] ∧
    (∀ w ∈ splitWords (['b'] : Str), w ∈ lookupWl regAB ['s']) ∧
    to_entropy H0 regAB wlA ['b'] false = .error .valueError := by
  refine ⟨rfl, rfl, by decide, rfl⟩

/-- Closed instance of C1 at the all-zero 4-byte entropy. -/
theorem c1_roundtrip_witness :
    (to_mnemonic H0 wlW [0, 0, 0, 0] true).bind
      (fun s => to_entropy H0 [(langW, wlW)] wlW s true) = .ok [0, 0, 0, 0] :=
  c1_roundtrip H0 wlW langW [0, 0, 0, 0] 1 wlW_length wlW_nodup wlW_nospace
    (by decide) rfl (by decide) (by decide) (by simp [H0])

set_option maxRecDepth 8192 in
/-- Closed instance of C2: decoding "a a ab", the valid mnemonic of the
four zero bytes with a checksum bit flipped in the last word, fails with
the invalid-checksum error. -/
theorem c2_checksum_mismatch_witness :
    to_entropy H0 [(langW, wlW)] wlW sntC2 true = .error .invalidChecksum :=
  c2_checksum_mismatch H0 [(langW, wlW)] wlW sntC2 sntC2 [0, 0, 1] 1
    (by rfl) (by rfl) rfl (by decide) (by decide) (by decide)

/-- Closed instance of C3 at the one-word sentence "a" over `regAB`. -/
theorem c3_to_seed_witness :
    to_seed prf0 enc0 regAB ['a'] [] =
        .ok (PBKDF2_read64 prf0 (enc0 ['a']) (mnemonicSaltBytes ++ []) PBKDF2_ROUNDS) ∧
      (PBKDF2_read64 prf0 (enc0 ['a']) (mnemonicSaltBytes ++ []) PBKDF2_ROUNDS).length = 64 :=
  have h := c3_to_seed prf0 enc0 regAB ['a'] ['a'] []
    (fun _ _ => by simp [prf0]) (by rfl)
  ⟨h.1, h.2.1⟩

/-- Closed instance of C4 at the all-zero 4-byte input. -/
theorem c4_checksum_witness :
    (checksum H0 [0, 0, 0, 0] = .error .invalidLength ↔
      ([0, 0, 0, 0] : Bytes).length % 4 ≠ 0) ∧
    (([0, 0, 0, 0] : Bytes).length % 4 = 0 →
      checksum H0 [0, 0, 0, 0] =
        .ok (((H0 [0, 0, 0, 0]).flatMap (natToDigits 2 8)).take
          (([0, 0, 0, 0] : Bytes).length * 8 / 32))) :=
  c4_checksum H0 [0, 0, 0, 0] (by simp [H0]) (by decide)

/-- Closed instance of the amended C5: decoding "b" on an instance whose
wordlist is `wlA` fails with `ValueError` although sanitization against
the detected language succeeded. -/
theorem c5_instance_wordlist_witness :
    to_entropy H0 regAB wlA ['b'] false = .error .valueError ∧
      sanitize_mnemonic regAB ['b'] = .ok ['b'] :=
  ⟨(c5_instance_wordlist H0 regAB wlA ['b'] ['b'] (by rfl)).1 (by decide), by rfl⟩

/-- Closed instance of C6 at the all-zero 4-byte entropy (which begins
with zero bits): a 3-word sentence, every word in the wordlist. -/
theorem c6_to_mnemonic_words_witness :
    ∃ s, to_mnemonic H0 wlW [0, 0, 0, 0] true = .ok s ∧
      (splitWords s).length =
        (([0, 0, 0, 0] : Bytes).length * 8 + ([0, 0, 0, 0] : Bytes).length * 8 / 32) / 11 ∧
      ∀ w ∈ splitWords s, w ∈ wlW :=
  c6_to_mnemonic_words H0 wlW [0, 0, 0, 0] 1 wlW_length wlW_nospace rfl
    (by decide) (by decide) (by simp [H0])

/-- Closed instance of C7 over `regAB` and the sentence "b" (resolved
language "s"). -/
theorem c7_sanitize_witness :
    ((∃ w ∈ splitWords (['b'] : Str), w ∉ lookupWl regAB ['s']) →
      ∃ w ∈ splitWords (['b'] : Str), w ∉ lookupWl regAB ['s'] ∧
        sanitize_mnemonic regAB ['b'] = .error (.unrecognizedWord w)) ∧
    ((∀ w ∈ splitWords (['b'] : Str), w ∈ lookupWl regAB ['s']) →
      sanitize_mnemonic regAB ['b'] = .ok (joinWords (splitWords ['b']))) :=
  c7_sanitize regAB ['b'] ['s'] (by rfl)

/-- Closed instance of C8 over `regAB` and the sentence "b". -/
theorem c8_detect_language_witness :
    (detect_language regAB ['b'] = .error .unknownLanguage ↔
      ∀ p ∈ regAB, countIn p.2 (splitWords ['b']) = 0) ∧
    (∀ lang, detect_language regAB ['b'] = .ok lang →
      ∃ p ∈ regAB, p.1 = lang ∧
        ∀ q ∈ regAB, countIn q.2 (splitWords ['b']) ≤ countIn p.2 (splitWords ['b'])) :=
  c8_detect_language regAB ['b'] (by decide)

/-- Closed instance of C9 at strength 128 with 16 zero random bytes. -/
theorem c9_generate_witness :
    (generate H0 wlW 128 true (List.replicate 16 0) = .error .invalidLength ↔
      (128 : Nat) % 32 ≠ 0) ∧
    ((128 : Nat) % 32 = 0 →
      generate H0 wlW 128 true (List.replicate 16 0) =
        to_mnemonic H0 wlW (List.replicate 16 0) true) :=
  c9_generate H0 wlW 128 true (List.replicate 16 0) wlW_length (by simp)

/-- Closed instance of C10 over `wlW` at the index -1: the word counted
from the end of the list. -/
theorem c10_word_witness :
    word wlW (-1) = .ok (getWord wlW 2047) :=
  (c10_word wlW (-1) wlW_length).2.2 (by decide) (by decide)

end BitcoinMnemonic
